import Mathlib

/-!
Verification of the text-to-slide parsing and layout engine of `txt2ppt`
(`src/app.py`) against its natural-language specification.

Python strings are modelled as `List Char`; Python's fallible operations
return `Option`.  Each Python helper of `app.py` is embedded as a Lean
function of the same name; spec-side counterparts (used for refinement
statements) carry a `Spec` suffix or live next to the claim they serve.
-/

set_option maxRecDepth 20000
set_option maxHeartbeats 1000000

namespace Txt2Ppt

/-- A Python string, modelled as its list of characters. -/
abbrev PyStr := List Char

/-- Characters of a Lean string literal, used to write concrete inputs. -/
def chars (s : String) : PyStr := s.data

/-- Python whitespace (the characters stripped by `str.strip()` and matched
by the regex class `\s`); ASCII whitespace plus the common Unicode
whitespace code points. -/
def isPySpace (c : Char) : Bool :=
  c = ' ' || c = '\t' || c = '\n' || c = '\r' || c = '\x0b' || c = '\x0c' ||
  c = '\x1c' || c = '\x1d' || c = '\x1e' || c = '\x1f' || c = '\x85' ||
  c = '\xa0' || c = '\u1680' || ('\u2000' ≤ c && c ≤ '\u200a') ||
  c = '\u2028' || c = '\u2029' || c = '\u202f' || c = '\u205f' || c = '\u3000'

/-- Line boundary characters of Python's `str.splitlines` (besides the
two-character boundary `"\r\n"`, handled separately). -/
def isLineBoundary (c : Char) : Bool :=
  c = '\n' || c = '\r' || c = '\x0b' || c = '\x0c' ||
  c = '\x1c' || c = '\x1d' || c = '\x1e' || c = '\x85' ||
  c = '\u2028' || c = '\u2029'

/-- ASCII decimal digit (the common case of Python's `str.isdigit`). -/
def isDigitChar (c : Char) : Bool := '0' ≤ c && c ≤ '9'

/-- `s.lstrip()`: drop leading whitespace. -/
def lstrip (s : PyStr) : PyStr := s.dropWhile isPySpace

/-- `s.rstrip()`: drop trailing whitespace. -/
def rstrip (s : PyStr) : PyStr := (s.reverse.dropWhile isPySpace).reverse

/-- Python `s.strip()`: drop leading and trailing whitespace. -/
def pyStrip (s : PyStr) : PyStr := rstrip (lstrip s)

/-- Python `s.isdigit()` (ASCII digits): non-empty and all digits. -/
def isdigitPy (s : PyStr) : Bool := !s.isEmpty && s.all isDigitChar

/-- Worker for `pySplitlines`; `acc` holds the current line reversed.
A `'\r'` immediately followed by `'\n'` is a single boundary. -/
def pySplitlinesGo : List Char → List Char → List PyStr
  | [], acc => if acc.isEmpty then [] else [acc.reverse]
  | '\r' :: '\n' :: rest, acc => acc.reverse :: pySplitlinesGo rest []
  | c :: rest, acc =>
    if isLineBoundary c then acc.reverse :: pySplitlinesGo rest []
    else pySplitlinesGo rest (c :: acc)

/-- Python `s.splitlines()`: split at line boundaries, no trailing empty
line for a string that ends in a line boundary. -/
def pySplitlines (s : PyStr) : List PyStr := pySplitlinesGo s []

/-- Worker for `splitNL`. -/
def splitNLGo : List Char → List Char → List PyStr
  | [], acc => [acc.reverse]
  | c :: rest, acc =>
    if c = '\n' then acc.reverse :: splitNLGo rest []
    else splitNLGo rest (c :: acc)

/-- Split a string at each `'\n'` (the line structure the blank-line
regular expression of `app.py` operates on). -/
def splitNL (s : PyStr) : List PyStr := splitNLGo s []

/-- Join strings with a single `'\n'` between them. -/
def joinNL : List PyStr → PyStr
  | [] => []
  | [l] => l
  | l :: rest => l ++ '\n' :: joinNL rest

/-- Join strings with a single space between them (`" ".join(...)`). -/
def joinSpace : List PyStr → PyStr
  | [] => []
  | [l] => l
  | l :: rest => l ++ ' ' :: joinSpace rest

/-! ### The bilingual pairer (`parse_bilingual`, `src/app.py` lines 45-83) -/

/-- One step of the blank-as-own-slide loop of `parse_bilingual`
(`blank_line_as_slide=True` branch): state is (pairs so far, pending
buffer).  A blank (post-strip) line appends the empty-slide tuple
`("","")`; otherwise the stripped line enters the buffer, which flushes
as a pair when it reaches length 2. -/
def bilinSlideStep (st : List (PyStr × PyStr) × List PyStr) (ln : PyStr) :
    List (PyStr × PyStr) × List PyStr :=
  let s := pyStrip ln
  if s.isEmpty then (st.1 ++ [([], [])], st.2)
  else
    let buf := st.2 ++ [s]
    if buf.length = 2 then (st.1 ++ [(buf.getD 0 [], buf.getD 1 [])], [])
    else (st.1, buf)

/-- The `while i < len(lines)` pairing loop of the simple-pairing branch:
consecutive entries two at a time, an unpaired final entry gets an empty
second slot. -/
def pairLoop : List PyStr → List (PyStr × PyStr)
  | [] => []
  | [l] => [(l, [])]
  | l1 :: l2 :: rest => (l1, l2) :: pairLoop rest

/-- The flush after the blank-as-own-slide loop (`if buf: pairs.append((buf[0], ""))`):
a leftover buffered line becomes a pair with an empty second slot. -/
def finishPairs (st : List (PyStr × PyStr) × List PyStr) :
    List (PyStr × PyStr) :=
  match st.2 with
  | [] => st.1
  | b :: _ => st.1 ++ [(b, [])]

/-- `parse_bilingual(content, use_blank_as_separator, blank_line_as_slide)`
from `src/app.py`: either the blank-as-own-slide scan or the simple
pairing over the (optionally blank-filtered) stripped lines. -/
def parse_bilingual (content : PyStr) (use_blank_as_separator : Bool)
    (blank_line_as_slide : Bool) : List (PyStr × PyStr) :=
  let raw_lines := pySplitlines content
  if blank_line_as_slide then
    finishPairs (raw_lines.foldl bilinSlideStep ([], []))
  else
    let lines := (raw_lines.filter
      (fun ln => !(pyStrip ln).isEmpty || !use_blank_as_separator)).map pyStrip
    pairLoop lines

/-- Spec-side scan for the blank-as-own-slide policy, following the words
of the specification: a buffer of at most two trimmed non-blank lines,
held here as `Option` since a full buffer of two is flushed immediately;
each blank line emits the blank marker without touching the buffer; a
single leftover line is emitted with an empty second slot. -/
def pairLinesOwnSlideSpec : List PyStr → Option PyStr → List (PyStr × PyStr)
  | [], none => []
  | [], some l => [(l, [])]
  | ln :: rest, buf =>
    let s := pyStrip ln
    if s.isEmpty then ([], []) :: pairLinesOwnSlideSpec rest buf
    else
      match buf with
      | none => pairLinesOwnSlideSpec rest (some s)
      | some f => (f, s) :: pairLinesOwnSlideSpec rest none

/-- Spec-side entry list for the simple-pairing policy: trim all lines,
dropping blank ones exactly when `treatBlankAsSeparator` is true. -/
def simpleEntriesSpec (treatBlankAsSeparator : Bool) (lines : List PyStr) :
    List PyStr :=
  if treatBlankAsSeparator then
    ((lines.map pyStrip).filter (fun s => !s.isEmpty))
  else lines.map pyStrip

/-- The Python buffer list (`[]` or `[x]`) as the spec's option buffer. -/
def bufOpt : List PyStr → Option PyStr
  | [] => none
  | b :: _ => some b

/-- Both slots of a pair are fixed points of `pyStrip`. -/
def trimmedPair (p : PyStr × PyStr) : Bool :=
  (pyStrip p.1 == p.1) && (pyStrip p.2 == p.2)

/-! ### The blank-line separator regex `\n\s*\n` and `parse_text` -/

/-- Embedding of the greedy tail `\s*\n` of the separator regex
`\n\s*\n` (used by `re.split` in `parse_text`): given the characters
after the leading `'\n'` of a candidate match, return the remainder of
the input after the last `'\n'` inside the whitespace prefix (the greedy
`\s*` backtracks to the last possible `'\n'`), or `none` when the
whitespace prefix holds no `'\n'` (no match at this position). -/
def sepScan : List Char → Option (List Char)
  | [] => none
  | c :: rest =>
    if isPySpace c then
      match sepScan rest with
      | some r => some r
      | none => if c = '\n' then some rest else none
    else none

/-- Fuelled scanner for `re.split(r"\n\s*\n", content)`: walk the input;
at each `'\n'` try the separator via `sepScan`; on a match emit the
accumulated segment and continue after the match, otherwise keep the
character.  The fuel (instantiated with the input length, which always
suffices) keeps the recursion structural so concrete inputs evaluate by
kernel reduction. -/
def reSplitGo : Nat → List Char → List Char → List PyStr
  | _, [], acc => [acc.reverse]
  | 0, cs, acc => [acc.reverse ++ cs]
  | fuel + 1, c :: rest, acc =>
    if c = '\n' then
      match sepScan rest with
      | some r => acc.reverse :: reSplitGo fuel r []
      | none => reSplitGo fuel rest (c :: acc)
    else reSplitGo fuel rest (c :: acc)

/-- `re.split(r"\n\s*\n", content)` from `parse_text`. -/
def re_split_blank (cs : PyStr) : List PyStr := reSplitGo cs.length cs []

/-- Eat exactly `n` digits (regex `\d{n}`). -/
def eatDigits : Nat → List Char → Option (List Char)
  | 0, cs => some cs
  | _ + 1, [] => none
  | n + 1, c :: cs => if isDigitChar c then eatDigits n cs else none

/-- Eat one expected character. -/
def eatChar (c : Char) : List Char → Option (List Char)
  | [] => none
  | d :: cs => if d = c then some cs else none

/-- Eat one `HH:MM:SS,mmm` timestamp (`\d{2}:\d{2}:\d{2},\d{3}`). -/
def eatTimestamp (cs : List Char) : Option (List Char) := do
  let cs ← eatDigits 2 cs
  let cs ← eatChar ':' cs
  let cs ← eatDigits 2 cs
  let cs ← eatChar ':' cs
  let cs ← eatDigits 2 cs
  let cs ← eatChar ',' cs
  eatDigits 3 cs

/-- The anchored timestamp-range regex of `parse_text`:
`^\s*\d{2}:\d{2}:\d{2},\d{3}\s*-->\s*\d{2}:\d{2}:\d{2},\d{3}\s*$`.
The input is a single line, so `$` is end of input. -/
def tsMatch (s : PyStr) : Bool :=
  (do
    let cs := s.dropWhile isPySpace
    let cs ← eatTimestamp cs
    let cs := cs.dropWhile isPySpace
    let cs ← eatChar '-' cs
    let cs ← eatChar '-' cs
    let cs ← eatChar '>' cs
    let cs := cs.dropWhile isPySpace
    let cs ← eatTimestamp cs
    let cs := cs.dropWhile isPySpace
    if cs.isEmpty then some () else none).isSome

/-- The inner loop of the `srt` branch of `parse_text`: strip each line
of a block and drop blank, purely-numeric and timestamp lines. -/
def srtBlockLines (b : PyStr) : List PyStr :=
  (pySplitlines b).foldl (fun acc ln =>
    let s := pyStrip ln
    if s.isEmpty || isdigitPy s || tsMatch s then acc else acc ++ [s]) []

/-- `parse_text(content, mode, preserve_blanks)` from `src/app.py`:
subtitle-cue blocks for `"srt"`, blank-line-separated paragraphs for
`"para"`, otherwise lines (verbatim when blanks are preserved, else
stripped non-blank lines). -/
def parse_text (content : PyStr) (mode : String) (preserve_blanks : Bool) :
    List PyStr :=
  if mode = "srt" then
    (re_split_blank (pyStrip content)).foldl (fun out b =>
      let lines := srtBlockLines b
      if lines.isEmpty then out else out ++ [joinSpace lines]) []
  else if mode = "para" then
    ((re_split_blank content).filter (fun b => !(pyStrip b).isEmpty)).map pyStrip
  else if preserve_blanks then pySplitlines content
  else ((pySplitlines content).filter (fun l => !(pyStrip l).isEmpty)).map pyStrip

/-! ### The layout engine and deck assembler
(`add_textbox_bottom`, `add_text_slide_*`, `build_ppt`) -/

/-- Floor of a rational, computed by floor division of numerator by
denominator (kernel-reducible, unlike the `FloorRing` projection). -/
def ratFloor (q : ℚ) : ℤ := q.num.fdiv q.den

/-- python-pptx `Cm(x)`: centimetres to EMU (914400 EMU per inch,
360000 per cm).  Python truncates the float product toward zero; for the
non-negative lengths used here this is the floor of the rational
product. -/
def cmEmu (q : ℚ) : ℤ := ratFloor (q * 360000)

/-- python-pptx `Pt(x)`: points to EMU (12700 EMU per point). -/
def ptEmu (q : ℚ) : ℤ := ratFloor (q * 12700)

/-- python-pptx `Inches(x)`: inches to EMU. -/
def inchesEmu (q : ℚ) : ℤ := ratFloor (q * 914400)

/-- A font tuple `(name, size, color, bold, italic)` as passed for the
primary/secondary bilingual typography. -/
structure PyFont where
  name : PyStr
  size : ℚ
  rgb : ℤ × ℤ × ℤ
  bold : Bool
  italic : Bool
deriving DecidableEq

/-- The layout-relevant state of one text box as issued to the canvas
sink by `add_textbox_bottom` (word wrap, zero internal margins and
bottom anchoring are set unconditionally and are not recorded). -/
structure TextBoxSpec where
  left : ℤ
  top : ℤ
  width : ℤ
  height : ℤ
  text : PyStr
  fontName : PyStr
  fontSizeEmu : ℤ
  fontRgb : ℤ × ℤ × ℤ
  bold : Bool
  italic : Bool
  alignCenter : Bool
  shrinkToFit : Bool
deriving DecidableEq

/-- One canvas-sink command: a new slide with a solid background fill,
or a text box added to the current slide. -/
inductive SlideCmd
  | newSlide (bg : ℤ × ℤ × ℤ)
  | textbox (tb : TextBoxSpec)
deriving DecidableEq

/-- `add_background_slide`: a new slide with solid background fill. -/
def add_background_slide (bg_rgb : ℤ × ℤ × ℤ) : SlideCmd := .newSlide bg_rgb

/-- `add_textbox_bottom` from `src/app.py`: the text box it configures.
The emitted font name is `(font_name or "Arial").strip()`: the fallback
applies only to the empty string (Python falsiness), after which the
chosen name is stripped. -/
def add_textbox_bottom (area_left area_top area_width area_height : ℤ)
    (font_name : PyStr) (font_size_pt : ℚ) (font_rgb : ℤ × ℤ × ℤ)
    (bold italic align_center shrink_to_fit : Bool) (text : PyStr) :
    TextBoxSpec :=
  { left := area_left, top := area_top,
    width := area_width, height := area_height,
    text := text,
    fontName := pyStrip (if font_name.isEmpty then chars "Arial" else font_name),
    fontSizeEmu := ptEmu font_size_pt,
    fontRgb := font_rgb, bold := bold, italic := italic,
    alignCenter := align_center, shrinkToFit := shrink_to_fit }

/-- `add_text_slide_single` from `src/app.py`: one background slide plus
one text box spanning the slide minus the four margins. -/
def add_text_slide_single (slide_width slide_height : ℤ)
    (m_top_cm m_bottom_cm m_left_cm m_right_cm : ℚ)
    (font_name : PyStr) (font_size_pt : ℚ) (font_rgb : ℤ × ℤ × ℤ)
    (bold italic : Bool) (bg_rgb : ℤ × ℤ × ℤ)
    (align_center shrink_to_fit : Bool) (text : PyStr) : List SlideCmd :=
  let left := cmEmu m_left_cm
  let width := slide_width - (cmEmu m_left_cm + cmEmu m_right_cm)
  let height := slide_height - (cmEmu m_top_cm + cmEmu m_bottom_cm)
  let top := cmEmu m_top_cm
  [add_background_slide bg_rgb,
   .textbox (add_textbox_bottom left top width height font_name font_size_pt
     font_rgb bold italic align_center shrink_to_fit text)]

/-- `add_text_slide_bilingual` from `src/app.py`: one background slide
plus two text boxes at independent bottom offsets sharing the band
height. -/
def add_text_slide_bilingual (slide_width slide_height : ℤ)
    (m_left_cm m_right_cm bottom_band_height_cm : ℚ)
    (primary_bottom_offset_cm secondary_bottom_offset_cm : ℚ)
    (primary_font secondary_font : PyFont) (bg_rgb : ℤ × ℤ × ℤ)
    (align_center shrink_to_fit : Bool) (line1 line2 : PyStr) :
    List SlideCmd :=
  let left := cmEmu m_left_cm
  let width := slide_width - (cmEmu m_left_cm + cmEmu m_right_cm)
  let ph := cmEmu bottom_band_height_cm
  let p_top := slide_height - cmEmu primary_bottom_offset_cm - ph
  let sh_h := cmEmu bottom_band_height_cm
  let s_top := slide_height - cmEmu secondary_bottom_offset_cm - sh_h
  [add_background_slide bg_rgb,
   .textbox (add_textbox_bottom left p_top width ph primary_font.name
     primary_font.size primary_font.rgb primary_font.bold primary_font.italic
     align_center shrink_to_fit line1),
   .textbox (add_textbox_bottom left s_top width sh_h secondary_font.name
     secondary_font.size secondary_font.rgb secondary_font.bold
     secondary_font.italic align_center shrink_to_fit line2)]

/-- An element of the `items` list fed to `build_ppt` in bilingual mode.
`pair` is a Python tuple (`isinstance(item, tuple)` true); `other` is any
non-tuple value, which the bilingual loop renders as a bare background
slide.  `parse_bilingual` only ever produces tuples. -/
inductive PyItem
  | pair (l1 l2 : PyStr)
  | other
deriving DecidableEq

/-- The keyword arguments of `build_ppt` used by its bilingual branch. -/
structure BilinCfg where
  widescreen : Bool
  shrink_to_fit : Bool
  m_left_cm : ℚ
  m_right_cm : ℚ
  bottom_band_height_cm : ℚ
  primary_bottom_offset_cm : ℚ
  secondary_bottom_offset_cm : ℚ
  primary_font : PyFont
  secondary_font : PyFont
  bg_rgb : ℤ × ℤ × ℤ
  align_center : Bool

/-- Slide dimensions chosen by `build_ppt`: `Inches(13.33) × Inches(7.5)`
when widescreen, else the python-pptx defaults (10 × 7.5 inches). -/
def slideDims (widescreen : Bool) : ℤ × ℤ :=
  if widescreen then (inchesEmu (1333 / 100), inchesEmu (15 / 2))
  else (9144000, 6858000)

/-- One iteration of the bilingual loop of `build_ppt`: a tuple item gets
a bilingual text slide, any other item only a background slide. -/
def renderBilingualItem (cfg : BilinCfg) (item : PyItem) : List SlideCmd :=
  let dims := slideDims cfg.widescreen
  match item with
  | .pair l1 l2 =>
    add_text_slide_bilingual dims.1 dims.2 cfg.m_left_cm cfg.m_right_cm
      cfg.bottom_band_height_cm cfg.primary_bottom_offset_cm
      cfg.secondary_bottom_offset_cm cfg.primary_font cfg.secondary_font
      cfg.bg_rgb cfg.align_center cfg.shrink_to_fit l1 l2
  | .other => [add_background_slide cfg.bg_rgb]

/-- The bilingual branch of `build_ppt`: iterate the items in order and
concatenate the canvas commands of each. -/
def build_ppt_bilingual (cfg : BilinCfg) (items : List PyItem) :
    List SlideCmd :=
  (items.map (renderBilingualItem cfg)).flatten

/-- Default bilingual configuration (the defaults of `build_ppt`'s
keyword arguments). -/
def cfgDefault : BilinCfg :=
  { widescreen := true, shrink_to_fit := true,
    m_left_cm := 1 / 4, m_right_cm := 1 / 4,
    bottom_band_height_cm := 5 / 2,
    primary_bottom_offset_cm := 0, secondary_bottom_offset_cm := 8 / 5,
    primary_font := ⟨chars "Arial", 44, (255, 255, 255), false, false⟩,
    secondary_font := ⟨chars "Arial", 36, (200, 200, 200), false, false⟩,
    bg_rgb := (0, 0, 0), align_center := true }

/-- Number of text boxes among a list of canvas commands. -/
def countTextboxes (cmds : List SlideCmd) : Nat :=
  (cmds.filter fun c => match c with
    | .textbox _ => true
    | .newSlide _ => false).length

/-! ### The decoder (`read_text_multi_enc`) -/

/-- The external text codecs (spec §6: an external collaborator): a
fallible decoder per encoding name and the total lossy
`utf-8`-with-replacement decoder. -/
structure Codecs where
  decode : String → List Nat → Option PyStr
  decodeUtf8Replace : List Nat → PyStr

/-- The fixed encoding fallback order of `read_text_multi_enc`. -/
def encodingOrder : List String := ["utf-8", "cp1250", "iso-8859-2", "latin2"]

/-- The `for enc in (...): try ... except: continue` loop: first
successful decode wins, the lossy decoder is the fallback. -/
def tryEncodings (C : Codecs) : List String → List Nat → PyStr
  | [], data => C.decodeUtf8Replace data
  | e :: rest, data =>
    match C.decode e data with
    | some s => s
    | none => tryEncodings C rest data

/-- `read_text_multi_enc(data)` from `src/app.py`. -/
def read_text_multi_enc (C : Codecs) (data : List Nat) : PyStr :=
  tryEncodings C encodingOrder data


/-! ### Spec-side definitions for segmentation claims -/

/-- Spec-side subtitle segmentation, following the specification's words:
trim the whole text, split into blocks at blank-line boundaries, drop
blank / purely numeric / timestamp lines inside each block, join the
survivors of a block with single spaces, and drop empty blocks. -/
def srtSpec (content : PyStr) : List PyStr :=
  (((re_split_blank (pyStrip content)).map
      (fun b => ((pySplitlines b).map pyStrip).filter
        (fun s => !(s.isEmpty || isdigitPy s || tsMatch s)))).filter
    (fun ls => !ls.isEmpty)).map joinSpace

/-- A blank line: every character is whitespace. -/
def isBlankLine (l : PyStr) : Bool := l.all isPySpace

/-- Worker for `nonBlankRuns`: group maximal runs of non-blank lines,
dropping blank lines; `acc` is the current run reversed. -/
def runsGo : List PyStr → List PyStr → List (List PyStr)
  | [], acc => if acc.isEmpty then [] else [acc.reverse]
  | l :: rest, acc =>
    if isBlankLine l then
      if acc.isEmpty then runsGo rest [] else acc.reverse :: runsGo rest []
    else runsGo rest (l :: acc)

/-- The maximal runs of consecutive non-blank lines, in order. -/
def nonBlankRuns (ls : List PyStr) : List (List PyStr) := runsGo ls []

/-- Spec-side paragraph segmentation: one unit per non-blank run of
lines, the run joined by newlines and trimmed. -/
def runsStrip (ls : List PyStr) : List PyStr :=
  (nonBlankRuns ls).map (fun r => pyStrip (joinNL r))

/-- Line-level counterpart of `sepScan`: on the lines after a `'\n'`,
the separator regex matches exactly when the next line is blank and is
not the last line; the result is the list of lines after the match (the
lines after the last blank of the leading blank run, or just the final
line when every remaining line is blank). -/
def sepLines : List PyStr → Option (List PyStr)
  | [] => none
  | l :: rest =>
    if rest.isEmpty then none
    else if isBlankLine l then
      match sepLines rest with
      | some r => some r
      | none => some rest
    else none

/-- The character accumulator of the segment scanner after the lines
`accL` (most recent first), each followed by its `'\n'`. -/
def accChars (accL : List PyStr) : List Char :=
  (accL.map (fun l => '\n' :: l.reverse)).flatten

/-- Fuelled line-level segment scanner equivalent to `reSplitGo`:
`accL` holds the lines of the current segment, most recent first. -/
def lineScanGo : Nat → List PyStr → List PyStr → List PyStr
  | _, [], accL => [joinNL accL.reverse]
  | _, [l], accL => [joinNL (accL.reverse ++ [l])]
  | 0, l :: ls, accL => [joinNL (accL.reverse ++ l :: ls)]
  | fuel + 1, l :: ls, accL =>
    match sepLines ls with
    | some rem => joinNL (accL.reverse ++ [l]) :: lineScanGo fuel rem []
    | none => lineScanGo fuel ls (l :: accL)

/-- The line-level segment scanner with adequate fuel. -/
def lineScan (ls accL : List PyStr) : List PyStr :=
  lineScanGo ls.length ls accL

/-- `reSplitGo` with adequate fuel. -/
def splitScan (cs acc : List Char) : List PyStr := reSplitGo cs.length cs acc

/-- The strip-and-filter step of paragraph mode applied to a segment
list (`[b.strip() for b in segs if b.strip()]`). -/
def stripFilter (segs : List PyStr) : List PyStr :=
  (segs.filter (fun b => !(pyStrip b).isEmpty)).map pyStrip

theorem sepScan_length : ∀ {cs r : List Char}, sepScan cs = some r →
    r.length < cs.length := by
  intro cs
  induction cs with
  | nil => intro r h; simp [sepScan] at h
  | cons c rest ih =>
    intro r h
    simp only [sepScan] at h
    by_cases hws : isPySpace c
    · rw [if_pos hws] at h
      rcases hr : sepScan rest with _ | r'
      · rw [hr] at h
        by_cases hnl : c = '\n'
        · rw [if_pos hnl] at h
          injection h with h'
          subst h'
          simp only [List.length_cons]
          omega
        · rw [if_neg hnl] at h
          exact absurd h (by simp)
      · rw [hr] at h
        injection h with h'
        subst h'
        have := ih hr
        simp only [List.length_cons]
        omega
    · rw [if_neg hws] at h
      exact absurd h (by simp)

/-! ### Basic facts about stripping -/

theorem lstrip_idem (s : PyStr) : lstrip (lstrip s) = lstrip s :=
  List.dropWhile_idempotent _ _

theorem rstrip_idem (s : PyStr) : rstrip (rstrip s) = rstrip s := by
  simp [rstrip, List.reverse_reverse, List.dropWhile_idempotent]

theorem lstrip_cons_head {c : Char} {s' : PyStr}
    (h : lstrip (c :: s') = c :: s') : isPySpace c = false := by
  by_contra hc
  rw [Bool.not_eq_false] at hc
  rw [lstrip] at h
  simp only [List.dropWhile_cons, hc, if_pos] at h
  have hle : (List.dropWhile isPySpace s').length ≤ s'.length :=
    (List.dropWhile_suffix isPySpace).sublist.length_le
  rw [h] at hle
  simp only [List.length_cons] at hle
  omega

theorem lstrip_stable_of_prefixOfSelf {s u : PyStr} (hs : lstrip s = s)
    (hu : u <+: s) : lstrip u = u := by
  cases u with
  | nil => rfl
  | cons c u' =>
    cases s with
    | nil => simp [List.prefix_nil] at hu
    | cons d s' =>
      rcases hu with ⟨t, ht⟩
      rw [List.cons_append] at ht
      injection ht with h1 _
      subst h1
      have hns := lstrip_cons_head hs
      simp [lstrip, List.dropWhile_cons, hns]

theorem prefixRstrip (s : PyStr) : rstrip s <+: s := by
  obtain ⟨t, ht⟩ := List.dropWhile_suffix (l := s.reverse) isPySpace
  refine ⟨t.reverse, ?_⟩
  rw [rstrip, ← List.reverse_append, ht, List.reverse_reverse]

theorem pyStrip_idem (s : PyStr) : pyStrip (pyStrip s) = pyStrip s := by
  unfold pyStrip
  rw [lstrip_stable_of_prefixOfSelf (lstrip_idem s) (prefixRstrip (lstrip s)),
    rstrip_idem]

theorem lstrip_eq_nil_iff {s : PyStr} :
    lstrip s = [] ↔ ∀ c ∈ s, isPySpace c = true := by
  simp [lstrip, List.dropWhile_eq_nil_iff]

theorem pyStrip_eq_nil_iff {s : PyStr} :
    pyStrip s = [] ↔ ∀ c ∈ s, isPySpace c = true := by
  unfold pyStrip rstrip
  rw [List.reverse_eq_nil_iff, List.dropWhile_eq_nil_iff]
  constructor
  · intro h c hc
    by_cases hmem : c ∈ lstrip s
    · exact h c (by simpa using hmem)
    · have hsplit := List.takeWhile_append_dropWhile (p := isPySpace) (l := s)
      have : c ∈ s.takeWhile isPySpace ++ s.dropWhile isPySpace := by
        rw [hsplit]; exact hc
      rcases List.mem_append.mp this with h1 | h2
      · exact List.mem_takeWhile_imp h1
      · exact absurd h2 hmem
    
  · intro h c hc
    rw [List.mem_reverse] at hc
    exact h c ((List.dropWhile_suffix isPySpace).subset hc)

/-! ### Refinement of the bilingual pairer -/

theorem foldl_bilinSlideStep (lines : List PyStr) :
    ∀ (P : List (PyStr × PyStr)) (buf : List PyStr), buf.length ≤ 1 →
      finishPairs (lines.foldl bilinSlideStep (P, buf)) =
        P ++ pairLinesOwnSlideSpec lines (bufOpt buf) := by
  induction lines with
  | nil =>
    intro P buf hle
    rcases buf with _ | ⟨b, _ | ⟨c, t⟩⟩
    · simp [finishPairs, pairLinesOwnSlideSpec, bufOpt]
    · simp [finishPairs, pairLinesOwnSlideSpec, bufOpt]
    · simp at hle
  | cons ln rest ih =>
    intro P buf hle
    rw [List.foldl_cons]
    by_cases hb : (pyStrip ln).isEmpty
    · have hstep : bilinSlideStep (P, buf) ln = (P ++ [([], [])], buf) := by
        simp [bilinSlideStep, hb]
      rw [hstep, ih _ _ hle]
      simp [pairLinesOwnSlideSpec, hb, List.append_assoc]
    · rcases buf with _ | ⟨f, _ | ⟨c, t⟩⟩
      · have hstep : bilinSlideStep (P, []) ln = (P, [pyStrip ln]) := by
          simp [bilinSlideStep, hb]
        rw [hstep, ih _ _ (by simp)]
        simp [pairLinesOwnSlideSpec, hb, bufOpt]
      · have hstep : bilinSlideStep (P, [f]) ln = (P ++ [(f, pyStrip ln)], []) := by
          simp [bilinSlideStep, hb]
        rw [hstep, ih _ _ (by simp)]
        simp [pairLinesOwnSlideSpec, hb, bufOpt, List.append_assoc]
      · simp at hle

theorem parse_bilingual_ownslide_eq (content : PyStr) (sep : Bool) :
    parse_bilingual content sep true =
      pairLinesOwnSlideSpec (pySplitlines content) none := by
  have h := foldl_bilinSlideStep (pySplitlines content) [] [] (by simp)
  simpa [parse_bilingual, bufOpt] using h

theorem parse_bilingual_simple_eq (content : PyStr) (sep : Bool) :
    parse_bilingual content sep false =
      pairLoop (simpleEntriesSpec sep (pySplitlines content)) := by
  cases sep
  · simp [parse_bilingual, simpleEntriesSpec]
  · simp only [parse_bilingual, simpleEntriesSpec, if_pos, Bool.not_true,
      Bool.or_false]
    rw [List.filter_map]
    rfl

/-- Every bilingual tuple item is rendered as one slide with exactly two
text boxes, whatever the configuration and contents. -/
theorem countTextboxes_bilingual_pair (cfg : BilinCfg) (l1 l2 : PyStr) :
    countTextboxes (renderBilingualItem cfg (.pair l1 l2)) = 2 := rfl

/-! ### Trimming invariants of the pairer output -/

theorem trimmedPair_of_strips {a b : PyStr} (ha : pyStrip a = a)
    (hb : pyStrip b = b) : trimmedPair (a, b) = true := by
  simp [trimmedPair, ha, hb]

theorem pairLinesOwnSlideSpec_trimmed (lines : List PyStr) :
    ∀ o : Option PyStr, (∀ x, o = some x → pyStrip x = x) →
      ((pairLinesOwnSlideSpec lines o).all trimmedPair) = true := by
  induction lines with
  | nil =>
    intro o ho
    rcases o with _ | x
    · rfl
    · simp only [pairLinesOwnSlideSpec, List.all_cons, List.all_nil,
        Bool.and_true]
      exact trimmedPair_of_strips (ho x rfl) rfl
  | cons ln rest ih =>
    intro o ho
    by_cases hb : (pyStrip ln).isEmpty
    · simp only [pairLinesOwnSlideSpec, hb, if_pos, List.all_cons]
      rw [ih o ho]
      decide
    · rcases o with _ | f
      · simp only [pairLinesOwnSlideSpec, hb, Bool.false_eq_true, if_neg,
          not_false_iff]
        exact ih _ (fun x hx => by cases hx; exact pyStrip_idem ln)
      · simp only [pairLinesOwnSlideSpec, hb, Bool.false_eq_true, if_neg,
          not_false_iff, List.all_cons]
        rw [ih none (by simp)]
        rw [trimmedPair_of_strips (ho f rfl) (pyStrip_idem ln)]
        rfl

theorem pairLoop_trimmed : ∀ entries : List PyStr,
    (entries.all fun s => pyStrip s == s) = true →
    ((pairLoop entries).all trimmedPair) = true
  | [], _ => rfl
  | [l], h => by
    simp only [List.all_cons, List.all_nil, Bool.and_true] at h
    simp [pairLoop, trimmedPair_of_strips (show pyStrip l = l by simpa using h)
      (show pyStrip ([] : PyStr) = [] from rfl)]
  | l1 :: l2 :: rest, h => by
    simp only [List.all_cons, Bool.and_eq_true] at h
    simp only [pairLoop, List.all_cons,
      trimmedPair_of_strips (by simpa using h.1) (by simpa using h.2.1),
      Bool.true_and]
    exact pairLoop_trimmed rest (by simp [h.2.2])

theorem simpleEntriesSpec_trimmed (sep : Bool) (lines : List PyStr) :
    ((simpleEntriesSpec sep lines).all fun s => pyStrip s == s) = true := by
  rw [List.all_eq_true]
  intro s hs
  have hmem : s ∈ lines.map pyStrip := by
    cases sep
    · simpa [simpleEntriesSpec] using hs
    · simp only [simpleEntriesSpec, if_pos] at hs
      exact List.mem_of_mem_filter hs
  rcases List.mem_map.mp hmem with ⟨ln, _, rfl⟩
  simp [pyStrip_idem]

/-! ### Claim theorems: the bilingual pairer and layout -/

/-- C3 (confirmed): the blank-as-own-slide bilingual policy scans lines
in order with a buffer of at most two trimmed non-blank lines; a blank
line immediately emits the blank marker without touching the buffer, a
full buffer flushes as a pair, and a lone leftover line is emitted with
an empty second slot; on `"a\nb\n\nc"` this yields
`[("a","b"), ("",""), ("c","")]` (the blank marker being the `("","")`
tuple). -/
theorem bilingual_ownslide_policy_correct (content : PyStr) (sep : Bool) :
    parse_bilingual content sep true =
      pairLinesOwnSlideSpec (pySplitlines content) none ∧
    parse_bilingual (chars "a\nb\n\nc") true true =
      [(chars "a", chars "b"), ([], []), (chars "c", [])] :=
  ⟨parse_bilingual_ownslide_eq content sep, by decide⟩

/-- C4 (confirmed): the simple-pairing bilingual policy builds the flat
list of trimmed lines (dropping blank ones exactly when
`treatBlankAsSeparator` is true), pairs consecutive entries two at a
time with an empty second slot for an unpaired final entry; every unit
it emits is rendered as a slide with two text boxes (never as a blank
background-only slide); `"a\n\nb\nc"` with the separator option yields
`[("a","b"), ("c","")]`. -/
theorem bilingual_simple_policy_correct (content : PyStr) (sep : Bool)
    (cfg : BilinCfg) :
    parse_bilingual content sep false =
      pairLoop (simpleEntriesSpec sep (pySplitlines content)) ∧
    (parse_bilingual content sep false).map
        (fun p => countTextboxes (renderBilingualItem cfg (.pair p.1 p.2))) =
      (parse_bilingual content sep false).map (fun _ => 2) ∧
    parse_bilingual (chars "a\n\nb\nc") true false =
      [(chars "a", chars "b"), (chars "c", [])] :=
  ⟨parse_bilingual_simple_eq content sep,
   by simp [countTextboxes_bilingual_pair],
   by decide⟩

/-- C10 (confirmed): every unit the bilingual pairer emits, under either
policy, is a tuple whose two string slots are fixed points of trimming;
the blank-slide marker is represented as exactly the tuple `("","")`
(here: a single blank input line yields `[("","")]`), the same value and
shape as a `TextPair` with two empty slots. -/
theorem bilingual_units_trimmed_and_blank_marker_shape (content : PyStr)
    (sep slide : Bool) :
    ((parse_bilingual content sep slide).all trimmedPair) = true ∧
    parse_bilingual (chars "\n") sep true = [([], [])] := by
  constructor
  · cases slide
    · rw [parse_bilingual_simple_eq]
      exact pairLoop_trimmed _ (simpleEntriesSpec_trimmed sep _)
    · rw [parse_bilingual_ownslide_eq]
      exact pairLinesOwnSlideSpec_trimmed _ none (by simp)
  · cases sep <;> decide

/-- C1 (code bug): the spec requires a `BlankMarker` to produce a slide
with zero text boxes, unlike a `TextPair`.  In the code the blank marker
is the tuple `("","")` (first conjunct: one blank input line yields
exactly it), and `build_ppt`'s bilingual loop dispatches on
`isinstance(item, tuple)`, so the blank marker is rendered as a
`TextPair` slide with two (empty) text boxes — not as a background-only
slide with zero text boxes. -/
theorem blank_marker_rendered_with_two_textboxes :
    parse_bilingual (chars "\n") true true = [([], [])] ∧
    countTextboxes (build_ppt_bilingual cfgDefault
      ((parse_bilingual (chars "\n") true true).map
        fun p => PyItem.pair p.1 p.2)) = 2 :=
  ⟨by decide, by decide⟩

/-- C2 counterexample: the font name `" "` is blank after trimming, yet
the emitted font name is the empty string, not the `"Arial"` fallback —
`(font_name or "Arial")` only replaces the empty string. -/
theorem font_fallback_counterexample :
    pyStrip (chars " ") = [] ∧
    (add_textbox_bottom 0 0 0 0 (chars " ") 44 (0, 0, 0) false false true
      true []).fontName = [] ∧
    (add_textbox_bottom 0 0 0 0 (chars " ") 44 (0, 0, 0) false false true
      true []).fontName ≠ chars "Arial" := by
  refine ⟨by decide, by decide, by decide⟩

/-- C2 amended (proved): the fallback `"Arial"` is used exactly when the
supplied font family name is the empty string; otherwise the emitted
name is the supplied name trimmed of surrounding whitespace (so a
whitespace-only name yields the empty font name, not the fallback). -/
theorem font_name_emitted (a1 a2 a3 a4 : ℤ) (name : PyStr) (sz : ℚ)
    (rgb : ℤ × ℤ × ℤ) (b i ac stf : Bool) (text : PyStr) :
    (add_textbox_bottom a1 a2 a3 a4 name sz rgb b i ac stf text).fontName =
      if name.isEmpty then chars "Arial" else pyStrip name := by
  cases name with
  | nil => simp [add_textbox_bottom]; decide
  | cons c cs => simp [add_textbox_bottom]

/-- C8 (confirmed): in single mode the one text box placed on the slide
has exactly `width = slideWidth − leftMargin − rightMargin`,
`height = slideHeight − topMargin − bottomMargin`, `left = leftMargin`
and `top = topMargin`, with margins converted to EMU. -/
theorem single_mode_geometry (sw sh : ℤ) (mtop mbot mleft mright : ℚ)
    (h1 : 0 ≤ mtop) (h2 : 0 ≤ mbot) (h3 : 0 ≤ mleft) (h4 : 0 ≤ mright)
    (fn : PyStr) (fs : ℚ) (rgb bg : ℤ × ℤ × ℤ) (b i ac stf : Bool)
    (text : PyStr) :
    ∃ tb : TextBoxSpec,
      add_text_slide_single sw sh mtop mbot mleft mright fn fs rgb b i bg
        ac stf text = [SlideCmd.newSlide bg, SlideCmd.textbox tb] ∧
      tb.width = sw - cmEmu mleft - cmEmu mright ∧
      tb.height = sh - cmEmu mtop - cmEmu mbot ∧
      tb.left = cmEmu mleft ∧ tb.top = cmEmu mtop := by
  refine ⟨_, rfl, ?_, ?_, rfl, rfl⟩ <;>
    simp [add_text_slide_single, add_textbox_bottom] <;> ring

/-- Witness for C8 at slide 100×200 EMU with all margins zero. -/
theorem single_mode_geometry_witness :
    ∃ tb : TextBoxSpec,
      add_text_slide_single 100 200 0 0 0 0 [] 44 (0, 0, 0) false false
        (0, 0, 0) true true [] =
        [SlideCmd.newSlide (0, 0, 0), SlideCmd.textbox tb] ∧
      tb.width = 100 - cmEmu 0 - cmEmu 0 ∧
      tb.height = 200 - cmEmu 0 - cmEmu 0 ∧
      tb.left = cmEmu 0 ∧ tb.top = cmEmu 0 :=
  single_mode_geometry 100 200 0 0 0 0 (le_refl 0) (le_refl 0) (le_refl 0)
    (le_refl 0) [] 44 (0, 0, 0) (0, 0, 0) false false true true []

/-- The decoding loop tried over any encoding list equals "first
successful decode, else the lossy fallback". -/
theorem tryEncodings_eq_findSome (C : Codecs) (data : List Nat) :
    ∀ encs : List String,
      tryEncodings C encs data =
        (encs.findSome? fun e => C.decode e data).getD
          (C.decodeUtf8Replace data) := by
  intro encs
  induction encs with
  | nil => rfl
  | cons e rest ih =>
    simp only [tryEncodings, List.findSome?]
    cases C.decode e data
    · simpa using ih
    · simp

/-- C9 (confirmed): the decoder tries `utf-8`, `cp1250`, `iso-8859-2`,
`latin2` in that fixed order and returns the first successful decode;
when all four fail it falls back to the total lossy utf-8 decoder, so it
always returns a string and can never raise. -/
theorem decoder_first_success_or_lossy (C : Codecs) (data : List Nat) :
    read_text_multi_enc C data =
      (encodingOrder.findSome? fun e => C.decode e data).getD
        (C.decodeUtf8Replace data) :=
  tryEncodings_eq_findSome C data encodingOrder

/-! ### Subtitle mode (C5) -/

theorem srtBlockLines_fold (lines : List PyStr) :
    ∀ acc : List PyStr,
      lines.foldl (fun acc ln =>
        let s := pyStrip ln
        if s.isEmpty || isdigitPy s || tsMatch s then acc else acc ++ [s])
        acc =
      acc ++ (lines.map pyStrip).filter
        (fun s => !(s.isEmpty || isdigitPy s || tsMatch s)) := by
  induction lines with
  | nil => intro acc; simp
  | cons ln rest ih =>
    intro acc
    simp only [List.foldl_cons, List.map_cons, List.filter_cons]
    by_cases hbad :
        ((pyStrip ln).isEmpty || isdigitPy (pyStrip ln) || tsMatch (pyStrip ln))
    · simp only [hbad, if_pos, Bool.not_true]
      rw [ih acc]
      simp
    · simp only [hbad, Bool.false_eq_true, if_neg, not_false_iff,
        Bool.not_false]
      rw [ih (acc ++ [pyStrip ln])]
      simp

theorem srtBlockLines_eq (b : PyStr) :
    srtBlockLines b = ((pySplitlines b).map pyStrip).filter
      (fun s => !(s.isEmpty || isdigitPy s || tsMatch s)) := by
  unfold srtBlockLines
  rw [srtBlockLines_fold]
  simp

theorem srt_outer_fold (blocks : List PyStr) :
    ∀ out : List PyStr,
      blocks.foldl (fun out b =>
        let lines := srtBlockLines b
        if lines.isEmpty then out else out ++ [joinSpace lines]) out =
      out ++ ((blocks.map srtBlockLines).filter
        (fun ls => !ls.isEmpty)).map joinSpace := by
  induction blocks with
  | nil => intro out; simp
  | cons b rest ih =>
    intro out
    simp only [List.foldl_cons, List.map_cons, List.filter_cons]
    by_cases hemp : (srtBlockLines b).isEmpty
    · simp only [hemp, if_pos, Bool.not_true]
      rw [ih out]
      simp
    · simp only [hemp, Bool.false_eq_true, if_neg, not_false_iff,
        Bool.not_false]
      rw [ih (out ++ [joinSpace (srtBlockLines b)])]
      simp

theorem parse_text_srt_eq (content : PyStr) (pb : Bool) :
    parse_text content "srt" pb = srtSpec content := by
  unfold parse_text
  rw [if_pos rfl, srt_outer_fold]
  unfold srtSpec
  rw [funext srtBlockLines_eq]
  simp

/-- C5 (confirmed): subtitle-mode segmentation trims the whole text,
splits it into blocks at blank-line boundaries, drops within each block
the lines that are blank after trimming, purely numeric, or timestamp
ranges, joins each block's surviving lines with single spaces and drops
empty blocks; the two-cue example yields `["Hello world", "Bye"]`. -/
theorem subtitle_mode_correct (content : PyStr) (pb : Bool) :
    parse_text content "srt" pb = srtSpec content ∧
    parse_text (chars
        "1\n00:00:01,000 --> 00:00:02,000\nHello\nworld\n\n2\n00:00:03,000 --> 00:00:04,000\nBye")
      "srt" pb = [chars "Hello world", chars "Bye"] :=
  ⟨parse_text_srt_eq content pb, by cases pb <;> decide⟩

/-! ### Line mode and the splitlines round trip (C6) -/

theorem pySplitlinesGo_nil (acc : List Char) :
    pySplitlinesGo [] acc = if acc.isEmpty then [] else [acc.reverse] := rfl

theorem pySplitlinesGo_crlf (rest acc : List Char) :
    pySplitlinesGo ('\r' :: '\n' :: rest) acc =
      acc.reverse :: pySplitlinesGo rest [] := rfl

theorem pySplitlinesGo_cons_boundary {c : Char} {rest : List Char}
    (hb : isLineBoundary c = true)
    (hcr : ¬(c = '\r' ∧ rest.head? = some '\n')) (acc : List Char) :
    pySplitlinesGo (c :: rest) acc =
      acc.reverse :: pySplitlinesGo rest [] := by
  conv_lhs => rw [pySplitlinesGo.eq_def]
  split
  · next heq => simp at heq
  · next x1 x2 heq =>
    exfalso
    injection heq with h1 h2
    exact hcr ⟨h1, by rw [h2]; rfl⟩
  · next x1 c2 r2 hno heq =>
    injection heq with h1 h2
    subst h1; subst h2
    simp [hb]

theorem pySplitlinesGo_cons_nonboundary {c : Char}
    (h : isLineBoundary c = false) (rest acc : List Char) :
    pySplitlinesGo (c :: rest) acc = pySplitlinesGo rest (c :: acc) := by
  have hr : ¬(c = '\r' ∧ rest.head? = some '\n') := by
    rintro ⟨hc, -⟩
    subst hc
    simp [isLineBoundary] at h
  conv_lhs => rw [pySplitlinesGo.eq_def]
  split
  · next heq => simp at heq
  · next x1 x2 heq =>
    exfalso
    injection heq with h1 h2
    exact hr ⟨h1, by rw [h2]; rfl⟩
  · next x1 c2 r2 hno heq =>
    injection heq with h1 h2
    subst h1; subst h2
    simp [h]

theorem pySplitlinesGo_free : ∀ (n : Nat) (s acc : List Char),
    s.length ≤ n → (∀ c ∈ acc, isLineBoundary c = false) →
    ∀ l ∈ pySplitlinesGo s acc, ∀ c ∈ l, isLineBoundary c = false := by
  intro n
  induction n with
  | zero =>
    intro s acc hlen hacc l hl c hc
    obtain rfl := List.length_eq_zero.mp (Nat.le_zero.mp hlen)
    rw [pySplitlinesGo_nil] at hl
    by_cases he : acc.isEmpty
    · simp [he] at hl
    · simp [he] at hl
      subst hl
      exact hacc c (by simpa using hc)
  | succ n ih =>
    intro s acc hlen hacc
    rcases s with _ | ⟨c, rest⟩
    · intro l hl c hc
      rw [pySplitlinesGo_nil] at hl
      by_cases he : acc.isEmpty
      · simp [he] at hl
      · simp [he] at hl
        subst hl
        exact hacc c (by simpa using hc)
    · simp only [List.length_cons] at hlen
      by_cases hb : isLineBoundary c = true
      · by_cases hcr : c = '\r' ∧ rest.head? = some '\n'
        · obtain ⟨hc1, hc2⟩ := hcr
          subst hc1
          rcases rest with _ | ⟨c2, rest2⟩
          · simp at hc2
          · simp only [List.head?_cons, Option.some_inj] at hc2
            subst hc2
            rw [pySplitlinesGo_crlf]
            intro l hl d hd
            rcases List.mem_cons.mp hl with h1 | h1
            · subst h1
              exact hacc d (by simpa using hd)
            · exact ih rest2 [] (by simp at hlen; omega) (by simp) l h1 d hd
        · rw [pySplitlinesGo_cons_boundary hb hcr]
          intro l hl d hd
          rcases List.mem_cons.mp hl with h1 | h1
          · subst h1
            exact hacc d (by simpa using hd)
          · exact ih rest [] (by omega) (by simp) l h1 d hd
      · rw [Bool.not_eq_true] at hb
        rw [pySplitlinesGo_cons_nonboundary hb]
        refine ih rest (c :: acc) (by omega) ?_
        intro d hd
        rcases List.mem_cons.mp hd with h1 | h1
        · subst h1; exact hb
        · exact hacc d h1

theorem pySplitlines_free (s : List Char) :
    ∀ l ∈ pySplitlines s, ∀ c ∈ l, isLineBoundary c = false :=
  pySplitlinesGo_free s.length s [] le_rfl (by simp)

theorem pySplitlinesGo_freeline_eval : ∀ {l : List Char},
    (∀ c ∈ l, isLineBoundary c = false) → ∀ acc : List Char,
    pySplitlinesGo l acc =
      if (acc.reverse ++ l).isEmpty then [] else [acc.reverse ++ l] := by
  intro l
  induction l with
  | nil => intro _ acc; cases acc <;> simp [pySplitlinesGo]
  | cons c l' ih =>
    intro hfree acc
    rw [pySplitlinesGo_cons_nonboundary (hfree c (by simp))]
    rw [ih (fun d hd => hfree d (by simp [hd]))]
    simp [List.reverse_cons, List.append_assoc]

theorem pySplitlinesGo_line_append : ∀ {l : List Char},
    (∀ c ∈ l, isLineBoundary c = false) → ∀ (rest acc : List Char),
    pySplitlinesGo (l ++ '\n' :: rest) acc =
      (acc.reverse ++ l) :: pySplitlinesGo rest [] := by
  intro l
  induction l with
  | nil =>
    intro _ rest acc
    rw [List.nil_append,
      pySplitlinesGo_cons_boundary (by decide) (by simp)]
    simp
  | cons c l' ih =>
    intro hfree rest acc
    rw [List.cons_append,
      pySplitlinesGo_cons_nonboundary (hfree c (by simp)),
      ih (fun d hd => hfree d (by simp [hd]))]
    simp [List.reverse_cons, List.append_assoc]

theorem pySplitlines_joinNL_free : ∀ ls : List PyStr,
    (∀ l ∈ ls, ∀ c ∈ l, isLineBoundary c = false) →
    ls.getLast? ≠ some [] →
    pySplitlines (joinNL ls) = ls
  | [], _, _ => rfl
  | [l], hfree, hlast => by
    show pySplitlinesGo l [] = [l]
    rw [pySplitlinesGo_freeline_eval (hfree l (by simp)) []]
    have hne : l ≠ [] := by
      intro h
      subst h
      simp [List.getLast?] at hlast
    simp [hne]
  | l :: l' :: rest, hfree, hlast => by
    show pySplitlinesGo (joinNL (l :: l' :: rest)) [] = _
    have hjoin : joinNL (l :: l' :: rest) = l ++ '\n' :: joinNL (l' :: rest) :=
      rfl
    rw [hjoin, pySplitlinesGo_line_append (hfree l (by simp)) _ []]
    simp only [List.reverse_nil, List.nil_append]
    exact congrArg (List.cons l)
      (pySplitlines_joinNL_free (l' :: rest)
        (fun x hx => hfree x (by simp [hx]))
        (by rwa [List.getLast?_cons_cons] at hlast))

/-- C6 counterexample: for `T = "\n"` the line units are `[""]`, and
re-joining with line breaks gives `""`, whose line structure (`[]`) is
not that of `T` (`[""]`) — the round trip fails as universally stated. -/
theorem line_mode_roundtrip_counterexample :
    parse_text (chars "\n") "line" true = [[]] ∧
    pySplitlines (joinNL (parse_text (chars "\n") "line" true)) ≠
      pySplitlines (chars "\n") := by decide

/-- C6 amended (proved): line mode with preserved blanks returns exactly
the lines of `T`, verbatim; and whenever the final line of `T` is not
empty (equivalently, `splitlines T` does not end in `""`), joining the
units with `'\n'` and re-splitting reconstructs the units exactly. -/
theorem line_mode_units_and_roundtrip (T : PyStr) :
    parse_text T "line" true = pySplitlines T ∧
    ((pySplitlines T).getLast? ≠ some [] →
      pySplitlines (joinNL (parse_text T "line" true)) = pySplitlines T) := by
  have h0 : parse_text T "line" true = pySplitlines T := by
    simp [parse_text]
  refine ⟨h0, fun hlast => ?_⟩
  rw [h0]
  exact pySplitlines_joinNL_free _ (pySplitlines_free T) hlast

/-- Witness for the amended C6 at `T = "ab\ncd"`. -/
theorem line_mode_units_and_roundtrip_witness :
    pySplitlines (joinNL (parse_text (chars "ab\ncd") "line" true)) =
      pySplitlines (chars "ab\ncd") :=
  (line_mode_units_and_roundtrip (chars "ab\ncd")).2 (by decide)

/-! ### Paragraph mode: step equations for the segment scanner (C7) -/

theorem reSplitGo_step (g : Nat) (c : Char) (rest acc : List Char) :
    reSplitGo (g + 1) (c :: rest) acc =
      if c = '\n' then
        match sepScan rest with
        | some r => acc.reverse :: reSplitGo g r []
        | none => reSplitGo g rest (c :: acc)
      else reSplitGo g rest (c :: acc) := rfl

theorem reSplitGo_fuel : ∀ (f : Nat) (cs acc : List Char), cs.length ≤ f →
    reSplitGo f cs acc = splitScan cs acc := by
  intro f
  induction f using Nat.strong_induction_on with
  | _ f ih =>
    intro cs acc hlen
    rcases cs with _ | ⟨c, rest⟩
    · rcases f with _ | f <;> rfl
    · rcases f with _ | f
      · simp at hlen
      · unfold splitScan
        rw [List.length_cons, reSplitGo_step, reSplitGo_step]
        simp only [List.length_cons] at hlen
        have hrest : rest.length ≤ f := by omega
        by_cases hc : c = '\n'
        · rw [if_pos hc, if_pos hc]
          rcases hr : sepScan rest with _ | r
          · simp only []
            rw [ih f (by omega) rest (c :: acc) hrest,
              ih rest.length (by omega) rest (c :: acc) le_rfl]
          · simp only []
            have hlr := sepScan_length hr
            rw [ih f (by omega) r [] (by omega),
              ih rest.length (by omega) r [] (by omega)]
        · rw [if_neg hc, if_neg hc,
            ih f (by omega) rest (c :: acc) hrest,
            ih rest.length (by omega) rest (c :: acc) le_rfl]

theorem re_split_blank_eq_splitScan (cs : PyStr) :
    re_split_blank cs = splitScan cs [] := rfl

theorem splitScan_nil (acc : List Char) : splitScan [] acc = [acc.reverse] :=
  rfl

theorem splitScan_newline_match {rest r : List Char}
    (h : sepScan rest = some r) (acc : List Char) :
    splitScan ('\n' :: rest) acc = acc.reverse :: splitScan r [] := by
  unfold splitScan
  rw [List.length_cons, reSplitGo_step, if_pos rfl, h]
  simp only []
  rw [reSplitGo_fuel rest.length r [] (le_of_lt (sepScan_length h))]
  rfl

theorem splitScan_newline_nomatch {rest : List Char}
    (h : sepScan rest = none) (acc : List Char) :
    splitScan ('\n' :: rest) acc = splitScan rest ('\n' :: acc) := by
  unfold splitScan
  rw [List.length_cons, reSplitGo_step, if_pos rfl, h]

theorem splitScan_other {c : Char} (h : c ≠ '\n') (rest acc : List Char) :
    splitScan (c :: rest) acc = splitScan rest (c :: acc) := by
  unfold splitScan
  rw [List.length_cons, reSplitGo_step, if_neg h]

theorem splitScan_append_free : ∀ {l : List Char},
    (∀ c ∈ l, c ≠ '\n') → ∀ (cs acc : List Char),
    splitScan (l ++ cs) acc = splitScan cs (l.reverse ++ acc) := by
  intro l
  induction l with
  | nil => intro _ cs acc; simp
  | cons c l' ih =>
    intro hfree cs acc
    rw [List.cons_append, splitScan_other (hfree c (by simp)),
      ih (fun d hd => hfree d (by simp [hd]))]
    simp [List.reverse_cons, List.append_assoc]

/-! ### `splitNL` facts -/

theorem joinNL_cons (x : PyStr) {xs : List PyStr} (h : xs ≠ []) :
    joinNL (x :: xs) = x ++ '\n' :: joinNL xs := by
  cases xs with
  | nil => exact absurd rfl h
  | cons y ys => rfl

theorem splitNLGo_ne_nil : ∀ (s acc : List Char), splitNLGo s acc ≠ [] := by
  intro s
  induction s with
  | nil => intro acc; simp [splitNLGo]
  | cons c rest ih =>
    intro acc
    by_cases hc : c = '\n'
    · subst hc; simp [splitNLGo]
    · simpa [splitNLGo, hc] using ih (c :: acc)

theorem joinNL_splitNLGo : ∀ (s acc : List Char),
    joinNL (splitNLGo s acc) = acc.reverse ++ s := by
  intro s
  induction s with
  | nil => intro acc; simp [splitNLGo, joinNL]
  | cons c rest ih =>
    intro acc
    by_cases hc : c = '\n'
    · subst hc
      simp only [splitNLGo, if_pos]
      rw [joinNL_cons _ (splitNLGo_ne_nil rest []), ih []]
      simp
    · simp only [splitNLGo, hc, if_neg, not_false_iff]
      rw [ih (c :: acc)]
      simp

theorem joinNL_splitNL (s : PyStr) : joinNL (splitNL s) = s := by
  simpa using joinNL_splitNLGo s []

theorem splitNLGo_free : ∀ (s acc : List Char),
    (∀ c ∈ acc, c ≠ '\n') →
    ∀ l ∈ splitNLGo s acc, ∀ c ∈ l, c ≠ '\n' := by
  intro s
  induction s with
  | nil =>
    intro acc hacc l hl c hc
    simp only [splitNLGo, List.mem_singleton] at hl
    subst hl
    exact hacc c (by simpa using hc)
  | cons d rest ih =>
    intro acc hacc l hl c hc
    by_cases hd : d = '\n'
    · subst hd
      simp only [splitNLGo, if_pos, List.mem_cons] at hl
      rcases hl with h1 | h1
      · subst h1; exact hacc c (by simpa using hc)
      · exact ih [] (by simp) l h1 c hc
    · simp only [splitNLGo, hd, if_neg, not_false_iff] at hl
      refine ih (d :: acc) ?_ l hl c hc
      intro e he
      rcases List.mem_cons.mp he with h1 | h1
      · subst h1; exact hd
      · exact hacc e h1

theorem splitNL_free (s : PyStr) :
    ∀ l ∈ splitNL s, ∀ c ∈ l, c ≠ '\n' :=
  splitNLGo_free s [] (by simp)

theorem splitNL_ne_nil (s : PyStr) : splitNL s ≠ [] :=
  splitNLGo_ne_nil s []

/-! ### `sepScan` at the line level -/

theorem sepScan_no_nl : ∀ {cs : List Char}, (∀ c ∈ cs, c ≠ '\n') →
    sepScan cs = none := by
  intro cs
  induction cs with
  | nil => intro _; rfl
  | cons c rest ih =>
    intro h
    have hrest := ih (fun d hd => h d (by simp [hd]))
    by_cases hws : isPySpace c
    · simp [sepScan, hws, hrest, h c (by simp)]
    · simp [sepScan, hws]

theorem sepScan_ws_skip {c : Char} (hws : isPySpace c = true)
    (hnl : c ≠ '\n') (rest : List Char) :
    sepScan (c :: rest) = sepScan rest := by
  simp only [sepScan, hws, if_pos]
  cases h : sepScan rest <;> simp [hnl]

theorem sepScan_cons_nl (cs : List Char) :
    sepScan ('\n' :: cs) = some ((sepScan cs).getD cs) := by
  have hws : isPySpace '\n' = true := by decide
  simp only [sepScan, hws, if_pos]
  cases h : sepScan cs <;> simp

theorem sepScan_allws_append : ∀ {l : List Char}, l.all isPySpace = true →
    (∀ c ∈ l, c ≠ '\n') → ∀ cs, sepScan (l ++ cs) = sepScan cs := by
  intro l
  induction l with
  | nil => intro _ _ cs; rfl
  | cons c l' ih =>
    intro hall hfree cs
    simp only [List.all_cons, Bool.and_eq_true] at hall
    rw [List.cons_append,
      sepScan_ws_skip hall.1 (hfree c (by simp)),
      ih hall.2 (fun d hd => hfree d (by simp [hd]))]

theorem sepScan_nonblank_head : ∀ {l : List Char},
    isBlankLine l = false → (∀ c ∈ l, c ≠ '\n') → ∀ cs,
    sepScan (l ++ cs) = none := by
  intro l
  induction l with
  | nil => intro hb; simp [isBlankLine] at hb
  | cons c l' ih =>
    intro hb hfree cs
    simp only [isBlankLine, List.all_cons] at hb
    by_cases hws : isPySpace c
    · rw [List.cons_append, sepScan_ws_skip hws (hfree c (by simp))]
      rw [hws, Bool.true_and] at hb
      exact ih hb (fun d hd => hfree d (by simp [hd])) cs
    · rw [List.cons_append]
      simp [sepScan, hws]

theorem sepLines_length : ∀ {LS rem : List PyStr},
    sepLines LS = some rem → rem.length < LS.length := by
  intro LS
  induction LS with
  | nil => intro rem h; simp [sepLines] at h
  | cons l rest ih =>
    intro rem h
    simp only [sepLines] at h
    by_cases hrest : rest.isEmpty
    · rw [if_pos hrest] at h
      exact absurd h (by simp)
    · rw [if_neg hrest] at h
      by_cases hb : isBlankLine l
      · rw [if_pos hb] at h
        cases hr : sepLines rest with
        | none =>
          rw [hr] at h
          simp only [Option.some_inj] at h
          subst h
          simp
        | some r =>
          rw [hr] at h
          simp only [Option.some_inj] at h
          subst h
          have := ih hr
          simp only [List.length_cons]
          omega
      · rw [if_neg hb] at h
        exact absurd h (by simp)

theorem sepLines_decomp : ∀ {LS rem : List PyStr}, sepLines LS = some rem →
    ∃ B, B ≠ [] ∧ (∀ b ∈ B, isBlankLine b = true) ∧ LS = B ++ rem ∧
      rem ≠ [] := by
  intro LS
  induction LS with
  | nil => intro rem h; simp [sepLines] at h
  | cons l rest ih =>
    intro rem h
    simp only [sepLines] at h
    by_cases hrest : rest.isEmpty
    · rw [if_pos hrest] at h
      exact absurd h (by simp)
    · rw [if_neg hrest] at h
      by_cases hb : isBlankLine l
      · rw [if_pos hb] at h
        cases hr : sepLines rest with
        | none =>
          rw [hr] at h
          simp only [Option.some_inj] at h
          subst h
          exact ⟨[l], by simp, by simpa using hb, rfl,
            by simpa using hrest⟩
        | some r =>
          rw [hr] at h
          simp only [Option.some_inj] at h
          subst h
          obtain ⟨B, hBne, hBblank, hBeq, hremne⟩ := ih hr
          refine ⟨l :: B, by simp, ?_, by simp [hBeq], hremne⟩
          intro b hbmem
          rcases List.mem_cons.mp hbmem with h1 | h1
          · subst h1; exact hb
          · exact hBblank b h1
      · rw [if_neg hb] at h
        exact absurd h (by simp)

theorem sepLines_cons (l : PyStr) (rest : List PyStr) :
    sepLines (l :: rest) =
      if rest.isEmpty then none
      else if isBlankLine l then
        match sepLines rest with
        | some r => some r
        | none => some rest
      else none := rfl

theorem sepScan_joinNL : ∀ (LS : List PyStr),
    (∀ l ∈ LS, ∀ c ∈ l, c ≠ '\n') →
    sepScan (joinNL LS) = (sepLines LS).map joinNL := by
  intro LS
  induction LS with
  | nil => intro _; rfl
  | cons l rest ih =>
    intro hfree
    rcases rest with _ | ⟨l', rest'⟩
    · show sepScan l = _
      rw [sepScan_no_nl (hfree l (by simp))]
      simp [sepLines]
    · rw [joinNL_cons l (by simp)]
      by_cases hb : isBlankLine l
      · rw [sepScan_allws_append (by simpa [isBlankLine] using hb)
          (hfree l (by simp)), sepScan_cons_nl,
          ih (fun x hx => hfree x (by simp [hx]))]
        conv_rhs => rw [sepLines_cons]
        rw [if_neg (by simp), if_pos hb]
        cases sepLines (l' :: rest') <;> simp
      · rw [sepScan_nonblank_head (by simpa using hb)
          (hfree l (by simp))]
        conv_rhs => rw [sepLines_cons]
        simp [hb]

/-! ### The line-level segment scanner -/

theorem lineScanGo_step (g : Nat) (l : PyStr) {ls : List PyStr}
    (hls : ls ≠ []) (accL : List PyStr) :
    lineScanGo (g + 1) (l :: ls) accL =
      match sepLines ls with
      | some rem => joinNL (accL.reverse ++ [l]) :: lineScanGo g rem []
      | none => lineScanGo g ls (l :: accL) := by
  rcases ls with _ | ⟨a, as⟩
  · exact absurd rfl hls
  · rfl

theorem lineScanGo_fuel : ∀ (f : Nat) (LS accL : List PyStr),
    LS.length ≤ f → lineScanGo f LS accL = lineScan LS accL := by
  intro f
  induction f using Nat.strong_induction_on with
  | _ f ih =>
    intro LS accL hlen
    rcases LS with _ | ⟨l, ls⟩
    · rcases f with _ | f <;> rfl
    · rcases ls with _ | ⟨a, as⟩
      · rcases f with _ | f <;> rfl
      · rcases f with _ | f
        · simp at hlen
        · unfold lineScan
          rw [List.length_cons, lineScanGo_step f l (by simp),
            lineScanGo_step (a :: as).length l (by simp)]
          simp only [List.length_cons] at hlen
          cases hr : sepLines (a :: as) with
          | some rem =>
            simp only []
            have hrl := sepLines_length hr
            simp only [List.length_cons] at hrl
            rw [ih f (by omega) rem [] (by omega),
              ih (a :: as).length (by simp only [List.length_cons]; omega)
                rem [] (by simp only [List.length_cons]; omega)]
          | none =>
            simp only []
            rw [ih f (by omega) (a :: as) (l :: accL)
                (by simp only [List.length_cons]; omega),
              ih (a :: as).length (by simp only [List.length_cons]; omega)
                (a :: as) (l :: accL) le_rfl]

theorem lineScan_nil (accL : List PyStr) :
    lineScan [] accL = [joinNL accL.reverse] := rfl

theorem lineScan_single (l : PyStr) (accL : List PyStr) :
    lineScan [l] accL = [joinNL (accL.reverse ++ [l])] := rfl

theorem lineScan_cons_match {ls rem : List PyStr} (hls : ls ≠ [])
    (h : sepLines ls = some rem) (l : PyStr) (accL : List PyStr) :
    lineScan (l :: ls) accL =
      joinNL (accL.reverse ++ [l]) :: lineScan rem [] := by
  unfold lineScan
  rw [List.length_cons, lineScanGo_step ls.length l hls, h]
  simp only []
  rw [lineScanGo_fuel ls.length rem [] (le_of_lt (sepLines_length h))]
  rfl

theorem lineScan_cons_nomatch {ls : List PyStr} (hls : ls ≠ [])
    (h : sepLines ls = none) (l : PyStr) (accL : List PyStr) :
    lineScan (l :: ls) accL = lineScan ls (l :: accL) := by
  unfold lineScan
  rw [List.length_cons, lineScanGo_step ls.length l hls, h]

theorem accChars_nil : accChars [] = [] := rfl

theorem accChars_cons (l : PyStr) (accL : List PyStr) :
    accChars (l :: accL) = '\n' :: l.reverse ++ accChars accL := rfl

theorem joinNL_append_two : ∀ (X : List PyStr) (a l : PyStr),
    joinNL (X ++ [a, l]) = joinNL (X ++ [a ++ '\n' :: l]) := by
  intro X
  induction X with
  | nil => intro a l; rfl
  | cons x X' ih =>
    intro a l
    rw [List.cons_append, List.cons_append,
      joinNL_cons x (by simp), joinNL_cons x (by simp), ih]

theorem accChars_reverse_append : ∀ (accL : List PyStr) (l : PyStr),
    (accChars accL).reverse ++ l = joinNL (accL.reverse ++ [l]) := by
  intro accL
  induction accL with
  | nil => intro l; simp [accChars, joinNL]
  | cons a accL' ih =>
    intro l
    rw [accChars_cons]
    have hl : (('\n' :: a.reverse ++ accChars accL')).reverse ++ l =
        (accChars accL').reverse ++ (a ++ '\n' :: l) := by
      simp [List.reverse_cons, List.reverse_append, List.append_assoc]
    rw [hl, ih (a ++ '\n' :: l), ← joinNL_append_two]
    have : (a :: accL').reverse ++ [l] = accL'.reverse ++ [a, l] := by
      simp
    rw [this]

theorem splitScan_eq_lineScan : ∀ (n : Nat) (LS accL : List PyStr),
    LS.length ≤ n → LS ≠ [] → (∀ l ∈ LS, ∀ c ∈ l, c ≠ '\n') →
    splitScan (joinNL LS) (accChars accL) = lineScan LS accL := by
  intro n
  induction n using Nat.strong_induction_on with
  | _ n ih =>
    intro LS accL hlen hne hfree
    rcases LS with _ | ⟨l, ls⟩
    · exact absurd rfl hne
    · rcases ls with _ | ⟨a, as⟩
      · rw [lineScan_single]
        have happ := splitScan_append_free (hfree l (by simp)) []
          (accChars accL)
        simp only [List.append_nil] at happ
        show splitScan l (accChars accL) = _
        rw [happ, splitScan_nil]
        have : (l.reverse ++ accChars accL).reverse =
            (accChars accL).reverse ++ l := by
          simp [List.reverse_append]
        rw [this, accChars_reverse_append]
      · simp only [List.length_cons] at hlen
        have hjoin : joinNL (l :: a :: as) = l ++ '\n' :: joinNL (a :: as) :=
          rfl
        rw [hjoin, splitScan_append_free (hfree l (by simp))]
        have hsep := sepScan_joinNL (a :: as)
          (fun x hx => hfree x (by simp [hx]))
        cases hr : sepLines (a :: as) with
        | some rem =>
          rw [hr] at hsep
          rw [splitScan_newline_match hsep]
          obtain ⟨B, hBne, hBbl, hBeq, hremne⟩ := sepLines_decomp hr
          have hremlen := sepLines_length hr
          simp only [List.length_cons] at hremlen
          have hfree' : ∀ x ∈ rem, ∀ c ∈ x, c ≠ '\n' := by
            intro x hx
            refine hfree x ?_
            have : x ∈ B ++ rem := List.mem_append.mpr (Or.inr hx)
            rw [← hBeq] at this
            simp [this]
          have hrec := ih rem.length (by omega) rem [] le_rfl hremne hfree'
          rw [lineScan_cons_match (by simp) hr]
          have hval : (l.reverse ++ accChars accL).reverse =
              joinNL (accL.reverse ++ [l]) := by
            rw [List.reverse_append, List.reverse_reverse,
              accChars_reverse_append]
          rw [hval]
          exact congrArg (List.cons _) hrec
        | none =>
          rw [hr] at hsep
          rw [splitScan_newline_nomatch hsep, lineScan_cons_nomatch
            (by simp) hr]
          have hrec := ih (a :: as).length
            (by simp only [List.length_cons]; omega) (a :: as) (l :: accL)
            le_rfl (by simp) (fun x hx => hfree x (by simp [hx]))
          exact hrec

theorem reSplit_eq_lineScan (T : PyStr) :
    re_split_blank T = lineScan (splitNL T) [] := by
  have h1 : T = joinNL (splitNL T) := (joinNL_splitNL T).symm
  rw [re_split_blank_eq_splitScan]
  conv_lhs => rw [h1]
  exact splitScan_eq_lineScan (splitNL T).length (splitNL T) [] le_rfl
    (splitNL_ne_nil T) (splitNL_free T)

/-! ### Stripping across blank material -/

theorem dropWhile_append_all {p : Char → Bool} : ∀ {w : List Char},
    (∀ c ∈ w, p c = true) → ∀ s : List Char,
    (w ++ s).dropWhile p = s.dropWhile p := by
  intro w
  induction w with
  | nil => intro _ s; rfl
  | cons c w' ih =>
    intro h s
    rw [List.cons_append, List.dropWhile_cons_of_pos (h c (by simp))]
    exact ih (fun d hd => h d (by simp [hd])) s

theorem lstrip_ws_append {w : List Char}
    (h : ∀ c ∈ w, isPySpace c = true) (s : List Char) :
    lstrip (w ++ s) = lstrip s :=
  dropWhile_append_all h s

theorem lstrip_append_of_not_all : ∀ {s : List Char},
    s.all isPySpace = false → ∀ y : List Char,
    lstrip (s ++ y) = lstrip s ++ y := by
  intro s
  induction s with
  | nil => intro h; simp at h
  | cons c s' ih =>
    intro h y
    simp only [List.all_cons] at h
    by_cases hws : isPySpace c
    · rw [hws, Bool.true_and] at h
      rw [List.cons_append, lstrip, List.dropWhile_cons_of_pos hws,
        show lstrip (c :: s') = lstrip s' from
          List.dropWhile_cons_of_pos hws]
      exact ih h y
    · have hws' : isPySpace c = false := by simpa using hws
      rw [List.cons_append, lstrip, List.dropWhile_cons_of_neg (by simp [hws']),
        show lstrip (c :: s') = c :: s' from
          List.dropWhile_cons_of_neg (by simp [hws'])]
      rfl

theorem rstrip_ws_suffix {w : List Char}
    (h : ∀ c ∈ w, isPySpace c = true) (x : List Char) :
    rstrip (x ++ w) = rstrip x := by
  unfold rstrip
  rw [List.reverse_append,
    dropWhile_append_all (fun c hc => h c (by simpa using hc))]

theorem pyStrip_ws_before {w : List Char}
    (h : ∀ c ∈ w, isPySpace c = true) (s : List Char) :
    pyStrip (w ++ s) = pyStrip s := by
  unfold pyStrip
  rw [lstrip_ws_append h]

theorem allWs_of_strip_nil : ∀ {s : List Char}, s.all isPySpace = true →
    pyStrip s = [] := by
  intro s h
  exact pyStrip_eq_nil_iff.mpr (List.all_eq_true.mp h)

theorem pyStrip_ws_suffix {w : List Char}
    (h : ∀ c ∈ w, isPySpace c = true) (s : List Char) :
    pyStrip (s ++ w) = pyStrip s := by
  by_cases hall : s.all isPySpace = true
  · rw [allWs_of_strip_nil hall, allWs_of_strip_nil]
    rw [List.all_append, hall, Bool.true_and]
    exact List.all_eq_true.mpr h
  · have hall' : s.all isPySpace = false := by
      rcases Bool.eq_false_or_eq_true (s.all isPySpace) with h1 | h1
      · exact absurd h1 hall
      · exact h1
    unfold pyStrip
    rw [lstrip_append_of_not_all hall', rstrip_ws_suffix h]

theorem isBlankLine_chars {l : PyStr} (hb : isBlankLine l = true) :
    ∀ c ∈ l, isPySpace c = true :=
  List.all_eq_true.mp hb

theorem isBlankLine_strip_nil {l : PyStr} (hb : isBlankLine l = true) :
    pyStrip l = [] :=
  allWs_of_strip_nil hb

theorem pyStrip_joinNL_blank_before : ∀ (B : List PyStr) {X : List PyStr},
    X ≠ [] → (∀ b ∈ B, isBlankLine b = true) →
    pyStrip (joinNL (B ++ X)) = pyStrip (joinNL X) := by
  intro B
  induction B with
  | nil => intro X _ _; rfl
  | cons b B' ih =>
    intro X hX hbl
    rw [List.cons_append, joinNL_cons b (by simp [hX]),
      show b ++ '\n' :: joinNL (B' ++ X) =
        (b ++ ['\n']) ++ joinNL (B' ++ X) by simp,
      pyStrip_ws_before ?hws, ih hX (fun x hx => hbl x (by simp [hx]))]
    case hws =>
      intro c hc
      rcases List.mem_append.mp hc with h1 | h1
      · exact isBlankLine_chars (hbl b (by simp)) c h1
      · simp only [List.mem_singleton] at h1
        subst h1
        decide

theorem joinNL_append_last : ∀ (X : List PyStr) (b : PyStr), X ≠ [] →
    joinNL (X ++ [b]) = joinNL X ++ '\n' :: b := by
  intro X
  induction X with
  | nil => intro b h; exact absurd rfl h
  | cons x X' ih =>
    intro b _
    rcases X' with _ | ⟨y, Y⟩
    · rfl
    · rw [List.cons_append, joinNL_cons x (by simp),
        joinNL_cons x (by simp), ih b (by simp)]
      simp

theorem pyStrip_joinNL_blank_suffix (X : List PyStr) (hX : X ≠ []) :
    ∀ (B : List PyStr), (∀ b ∈ B, isBlankLine b = true) →
    pyStrip (joinNL (X ++ B)) = pyStrip (joinNL X) := by
  intro B
  induction B using List.reverseRecOn with
  | nil => intro _; rw [List.append_nil]
  | append_singleton B' b ih =>
    intro hbl
    rw [← List.append_assoc, joinNL_append_last _ b (by simp [hX]),
      pyStrip_ws_suffix ?hws, ih (fun x hx => hbl x (by simp [hx]))]
    case hws =>
      intro c hc
      rcases List.mem_cons.mp hc with h1 | h1
      · subst h1; decide
      · exact isBlankLine_chars (hbl b (by simp)) c h1

theorem mem_joinNL : ∀ {r : List PyStr} {x : PyStr}, x ∈ r →
    ∀ {c : Char}, c ∈ x → c ∈ joinNL r := by
  intro r
  induction r with
  | nil => intro x hx; simp at hx
  | cons y r' ih =>
    intro x hx c hc
    rcases r' with _ | ⟨z, zs⟩
    · simp only [List.mem_singleton] at hx
      subst hx
      exact hc
    · rw [joinNL_cons y (by simp)]
      rcases List.mem_cons.mp hx with h1 | h1
      · subst h1
        exact List.mem_append.mpr (Or.inl hc)
      · exact List.mem_append.mpr (Or.inr (by simp [ih h1 hc]))

theorem pyStrip_joinNL_ne_nil {r : List PyStr} {x : PyStr} (hx : x ∈ r)
    (hnb : isBlankLine x = false) : pyStrip (joinNL r) ≠ [] := by
  intro hnil
  have hall := pyStrip_eq_nil_iff.mp hnil
  have : ∀ c ∈ x, isPySpace c = true := fun c hc =>
    hall c (mem_joinNL hx hc)
  rw [show isBlankLine x = true from List.all_eq_true.mpr this] at hnb
  exact absurd hnb (by simp)

/-! ### Facts about `runsGo` -/

theorem runsGo_nil (acc : List PyStr) :
    runsGo [] acc = if acc.isEmpty then [] else [acc.reverse] := rfl

theorem runsGo_cons_blank_nil {l : PyStr} (hb : isBlankLine l = true)
    (ls : List PyStr) : runsGo (l :: ls) [] = runsGo ls [] := by
  simp [runsGo, hb]

theorem runsGo_cons_blank {l : PyStr} (hb : isBlankLine l = true)
    (ls : List PyStr) {acc : List PyStr} (hacc : acc ≠ []) :
    runsGo (l :: ls) acc = acc.reverse :: runsGo ls [] := by
  rcases acc with _ | ⟨a, as⟩
  · exact absurd rfl hacc
  · simp [runsGo, hb]

theorem runsGo_cons_nonblank {l : PyStr} (hb : isBlankLine l = false)
    (ls acc : List PyStr) : runsGo (l :: ls) acc = runsGo ls (l :: acc) := by
  simp [runsGo, hb]

theorem runsGo_append_nonblank : ∀ {N : List PyStr},
    (∀ x ∈ N, isBlankLine x = false) → ∀ ls acc : List PyStr,
    runsGo (N ++ ls) acc = runsGo ls (N.reverse ++ acc) := by
  intro N
  induction N with
  | nil => intro _ ls acc; simp
  | cons x N' ih =>
    intro h ls acc
    rw [List.cons_append, runsGo_cons_nonblank (h x (by simp)),
      ih (fun y hy => h y (by simp [hy]))]
    simp [List.append_assoc]

theorem runsGo_skip_blanks : ∀ {B : List PyStr},
    (∀ b ∈ B, isBlankLine b = true) → ∀ ls : List PyStr,
    runsGo (B ++ ls) [] = runsGo ls [] := by
  intro B
  induction B with
  | nil => intro _ ls; rfl
  | cons b B' ih =>
    intro h ls
    rw [List.cons_append, runsGo_cons_blank_nil (h b (by simp)),
      ih (fun x hx => h x (by simp [hx]))]

theorem stripFilter_cons (x : PyStr) (xs : List PyStr) :
    stripFilter (x :: xs) =
      if (pyStrip x).isEmpty then stripFilter xs
      else pyStrip x :: stripFilter xs := by
  by_cases h : (pyStrip x).isEmpty <;>
    simp [stripFilter, List.filter_cons, h]

theorem sepLines_none_head {l : PyStr} {ls : List PyStr}
    (h : sepLines (l :: ls) = none) (hne : ls ≠ []) :
    isBlankLine l = false := by
  rw [sepLines_cons, if_neg (by simp [hne])] at h
  by_cases hb : isBlankLine l
  · rw [if_pos hb] at h
    cases hr : sepLines ls <;> rw [hr] at h <;> simp at h
  · simpa using hb

/-! ### From segments to non-blank runs -/

theorem runsStrip_end_core {A : List PyStr}
    (hA : ∀ x ∈ A, isBlankLine x = false) (l : PyStr) :
    runsStrip (A ++ [l]) =
      if (pyStrip (joinNL (A ++ [l]))).isEmpty then []
      else [pyStrip (joinNL (A ++ [l]))] := by
  unfold runsStrip nonBlankRuns
  rw [runsGo_append_nonblank hA [l] [], List.append_nil]
  by_cases hbl : isBlankLine l = true
  · rcases A with _ | ⟨a, N⟩
    · simp only [List.reverse_nil]
      rw [runsGo_cons_blank_nil hbl]
      simp [joinNL, isBlankLine_strip_nil hbl, runsGo]
    · rw [runsGo_cons_blank hbl [] (by simp)]
      have hseg : pyStrip (joinNL (a :: (N ++ [l]))) =
          pyStrip (joinNL (a :: N)) := by
        have := pyStrip_joinNL_blank_suffix (a :: N) (by simp) [l]
          (by simp [hbl])
        simpa using this
      have hne : pyStrip (joinNL (a :: N)) ≠ [] :=
        pyStrip_joinNL_ne_nil (show a ∈ a :: N by simp) (hA a (by simp))
      simp [hseg, hne, runsGo]
  · have hbl' : isBlankLine l = false := by simpa using hbl
    rw [runsGo_cons_nonblank hbl']
    have hne : pyStrip (joinNL (A ++ [l])) ≠ [] :=
      pyStrip_joinNL_ne_nil (show l ∈ A ++ [l] by simp) hbl'
    simp [runsGo, hne, List.reverse_cons]

theorem runsStrip_end {A : List PyStr}
    (hA : ∀ x ∈ A.tail, isBlankLine x = false) (l : PyStr) :
    runsStrip (A ++ [l]) =
      if (pyStrip (joinNL (A ++ [l]))).isEmpty then []
      else [pyStrip (joinNL (A ++ [l]))] := by
  rcases A with _ | ⟨a, N⟩
  · exact runsStrip_end_core (by simp) l
  · simp only [List.tail_cons] at hA
    by_cases hba : isBlankLine a = true
    · have h1 : runsStrip ((a :: N) ++ [l]) = runsStrip (N ++ [l]) := by
        unfold runsStrip nonBlankRuns
        rw [List.cons_append, runsGo_cons_blank_nil hba]
      have h2 : pyStrip (joinNL ((a :: N) ++ [l])) =
          pyStrip (joinNL (N ++ [l])) := by
        have := pyStrip_joinNL_blank_before [a] (X := N ++ [l]) (by simp)
          (by simp [hba])
        simpa using this
      rw [h1, h2]
      exact runsStrip_end_core hA l
    · refine runsStrip_end_core ?_ l
      intro x hx
      rcases List.mem_cons.mp hx with h1 | h1
      · subst h1; simpa using hba
      · exact hA x h1

theorem runsStrip_mid_core {A : List PyStr}
    (hA : ∀ x ∈ A, isBlankLine x = false) (l : PyStr) {B rem : List PyStr}
    (hBne : B ≠ []) (hBbl : ∀ b ∈ B, isBlankLine b = true) :
    runsStrip (A ++ l :: (B ++ rem)) =
      (if (pyStrip (joinNL (A ++ [l]))).isEmpty then []
       else [pyStrip (joinNL (A ++ [l]))]) ++ runsStrip rem := by
  unfold runsStrip nonBlankRuns
  rw [runsGo_append_nonblank hA, List.append_nil]
  by_cases hbl : isBlankLine l = true
  · rcases A with _ | ⟨a, N⟩
    · simp only [List.reverse_nil]
      rw [runsGo_cons_blank_nil hbl, runsGo_skip_blanks hBbl]
      simp [joinNL, isBlankLine_strip_nil hbl]
    · rw [runsGo_cons_blank hbl _ (by simp), runsGo_skip_blanks hBbl]
      have hseg : pyStrip (joinNL (a :: (N ++ [l]))) =
          pyStrip (joinNL (a :: N)) := by
        have := pyStrip_joinNL_blank_suffix (a :: N) (by simp) [l]
          (by simp [hbl])
        simpa using this
      have hne : pyStrip (joinNL (a :: N)) ≠ [] :=
        pyStrip_joinNL_ne_nil (show a ∈ a :: N by simp) (hA a (by simp))
      simp [hseg, hne]
  · have hbl' : isBlankLine l = false := by simpa using hbl
    rcases B with _ | ⟨b, B'⟩
    · exact absurd rfl hBne
    · rw [runsGo_cons_nonblank hbl', List.cons_append,
        runsGo_cons_blank (hBbl b (by simp)) _ (by simp),
        runsGo_skip_blanks (fun x hx => hBbl x (by simp [hx]))]
      have hne : pyStrip (joinNL (A ++ [l])) ≠ [] :=
        pyStrip_joinNL_ne_nil (show l ∈ A ++ [l] by simp) hbl'
      simp [hne, List.reverse_cons]

theorem runsStrip_mid {A : List PyStr}
    (hA : ∀ x ∈ A.tail, isBlankLine x = false) (l : PyStr) {B rem : List PyStr}
    (hBne : B ≠ []) (hBbl : ∀ b ∈ B, isBlankLine b = true) :
    runsStrip (A ++ l :: (B ++ rem)) =
      (if (pyStrip (joinNL (A ++ [l]))).isEmpty then []
       else [pyStrip (joinNL (A ++ [l]))]) ++ runsStrip rem := by
  rcases A with _ | ⟨a, N⟩
  · exact runsStrip_mid_core (by simp) l hBne hBbl
  · simp only [List.tail_cons] at hA
    by_cases hba : isBlankLine a = true
    · have h1 : runsStrip ((a :: N) ++ l :: (B ++ rem)) =
          runsStrip (N ++ l :: (B ++ rem)) := by
        unfold runsStrip nonBlankRuns
        rw [List.cons_append, runsGo_cons_blank_nil hba]
      have h2 : pyStrip (joinNL ((a :: N) ++ [l])) =
          pyStrip (joinNL (N ++ [l])) := by
        have := pyStrip_joinNL_blank_before [a] (X := N ++ [l]) (by simp)
          (by simp [hba])
        simpa using this
      rw [h1, h2]
      exact runsStrip_mid_core hA l hBne hBbl
    · refine runsStrip_mid_core ?_ l hBne hBbl
      intro x hx
      rcases List.mem_cons.mp hx with h1 | h1
      · subst h1; simpa using hba
      · exact hA x h1

theorem lineScan_runsStrip : ∀ (n : Nat) (LS accL : List PyStr),
    LS.length ≤ n → LS ≠ [] →
    (∀ x ∈ accL.reverse.tail, isBlankLine x = false) →
    (accL ≠ [] → sepLines LS = none) →
    stripFilter (lineScan LS accL) = runsStrip (accL.reverse ++ LS) := by
  intro n
  induction n using Nat.strong_induction_on with
  | _ n ih =>
    intro LS accL hlen hne htail hsep
    rcases LS with _ | ⟨l, ls⟩
    · exact absurd rfl hne
    · rcases ls with _ | ⟨a, as⟩
      · rw [lineScan_single, stripFilter_cons,
          show stripFilter [] = [] from rfl, runsStrip_end htail l]
      · simp only [List.length_cons] at hlen
        cases hr : sepLines (a :: as) with
        | some rem =>
          rw [lineScan_cons_match (by simp) hr, stripFilter_cons]
          obtain ⟨B, hBne, hBbl, hBeq, hremne⟩ := sepLines_decomp hr
          have hremlen := sepLines_length hr
          simp only [List.length_cons] at hremlen
          have hIH := ih rem.length (by omega) rem [] le_rfl hremne
            (by simp) (fun h => absurd rfl h)
          simp only [List.reverse_nil, List.nil_append] at hIH
          rw [hIH, hBeq, runsStrip_mid htail l hBne hBbl]
          by_cases hseg : (pyStrip (joinNL (accL.reverse ++ [l]))).isEmpty <;>
            simp [hseg]
        | none =>
          rw [lineScan_cons_nomatch (by simp) hr]
          have htail' : ∀ x ∈ (l :: accL).reverse.tail,
              isBlankLine x = false := by
            rcases accL with _ | ⟨a0, as0⟩
            · simp
            · intro x hx
              have hnb : isBlankLine l = false :=
                sepLines_none_head (hsep (by simp)) (by simp)
              rw [List.reverse_cons] at hx
              rcases hrev : (a0 :: as0).reverse with _ | ⟨h0, t0⟩
              · simp [hrev] at hx
              · rw [hrev] at hx
                simp only [List.cons_append, List.tail_cons] at hx
                rcases List.mem_append.mp hx with h1 | h1
                · exact htail x (by rw [hrev]; simpa using h1)
                · simp only [List.mem_singleton] at h1
                  subst h1
                  exact hnb
          have hIH := ih (a :: as).length
            (by simp only [List.length_cons]; omega) (a :: as) (l :: accL)
            le_rfl (by simp) htail' (fun _ => hr)
          rw [hIH]
          simp [List.reverse_cons, List.append_assoc]

theorem parse_para_eq (T : PyStr) (pb : Bool) :
    parse_text T "para" pb = runsStrip (splitNL T) := by
  have h0 : parse_text T "para" pb = stripFilter (re_split_blank T) := by
    simp [parse_text, stripFilter]
  rw [h0, reSplit_eq_lineScan]
  have := lineScan_runsStrip (splitNL T).length (splitNL T) [] le_rfl
    (splitNL_ne_nil T) (by simp) (fun h => absurd rfl h)
  simpa using this

/-- C7 (confirmed): every paragraph-mode unit is non-empty and free of
leading/trailing whitespace (never a blank line); and the output is
exactly one unit per maximal non-blank run of lines of `T`, in original
order, each unit being that run joined by newlines and trimmed. -/
theorem paragraph_mode_correct (T : PyStr) (pb : Bool) :
    ((parse_text T "para" pb).all
      fun u => !u.isEmpty && (pyStrip u == u)) = true ∧
    parse_text T "para" pb = runsStrip (splitNL T) := by
  constructor
  · rw [List.all_eq_true]
    intro u hu
    have h0 : parse_text T "para" pb = stripFilter (re_split_blank T) := by
      simp [parse_text, stripFilter]
    rw [h0] at hu
    unfold stripFilter at hu
    rcases List.mem_map.mp hu with ⟨b, hb, rfl⟩
    have hbf := List.of_mem_filter hb
    simp only [Bool.and_eq_true, beq_iff_eq]
    exact ⟨by simpa using hbf, pyStrip_idem b⟩
  · exact parse_para_eq T pb

end Txt2Ppt
